import Mathlib

/-!
# Verification of the treap implementation

A shallow embedding of the treap (randomized binary search tree) from
`temp.cpp`: the node structure `NodeImpl<int,int>` and its four static
operations `split`, `insert`, `exists` and `height`, together with proofs
of the BST/heap invariants and the functional-correctness properties of
these operations.

The C++ code manipulates trees through mutable `Node*` pointers; here a
tree is an inductive value, and each operation is the pure function
computed by the corresponding C++ recursion.  `NodeImpl<int,int>` keys and
payloads are `int` and heap keys are `long`; all are embedded as `Int`.
-/

namespace TreapSpec

/-- A possibly-empty treap: either the null pointer or a `NodeImpl` with its
`tree_key`, `payload`, `heap_key` and the two child subtrees. -/
inductive Treap where
  | leaf : Treap
  | node (tree_key : Int) (payload : Int) (heap_key : Int) (left right : Treap) : Treap
deriving DecidableEq, Repr

/-- The data carried by a freshly constructed node (`NodeImpl(k, v)` with
the heap key drawn by `new_heap_key`); the constructor sets both children
to `NULL`. -/
structure NodeData where
  tree_key : Int
  payload : Int
  heap_key : Int
deriving DecidableEq, Repr

/-- `NodeImpl::split`: splits the treap by tree key `k`, returning the pair
that the C++ writes into the out-parameters `(l, r)`. -/
def split : Treap → Int → Treap × Treap
  | .leaf, _ => (.leaf, .leaf)
  | .node tk pv hk l r, k =>
    if k < tk then
      let p := split l k
      (p.1, .node tk pv hk p.2 r)
    else
      let p := split r k
      (.node tk pv hk l p.1, p.2)

/-- `NodeImpl::insert`: makes the tree a root of a new tree with the
inserted node; returns the new root written back into `treap`. -/
def insert : Treap → NodeData → Treap
  | .leaf, n => .node n.tree_key n.payload n.heap_key .leaf .leaf
  | .node tk pv hk l r, n =>
    if hk > n.heap_key then
      if n.tree_key < tk then .node tk pv hk (insert l n) r
      else .node tk pv hk l (insert r n)
    else
      let p := split (.node tk pv hk l r) n.tree_key
      .node n.tree_key n.payload n.heap_key p.1 p.2

/-- `NodeImpl::exists`: simple checking function for the binary tree; the
recursive call descends into the subtree chosen by `(k < tree_key) ? left : right`. -/
def existsKey : Treap → Int → Bool
  | .leaf, _ => false
  | .node tk _ _ l r, k =>
    if k = tk then true
    else if k < tk then existsKey l k else existsKey r k

/-- `NodeImpl::height`: `0` for the null tree, otherwise one plus the larger
child height (the C++ computes the maximum as `(lh<rh)? rh : lh`). -/
def height : Treap → Nat
  | .leaf => 0
  | .node _ _ _ l r => 1 + (if height l < height r then height r else height l)

/-- The multiset of tree keys stored in a treap. -/
def keys : Treap → Multiset Int
  | .leaf => 0
  | .node tk _ _ l r => tk ::ₘ (keys l + keys r)

/-- The multiset of heap keys (priorities) stored in a treap. -/
def prios : Treap → Multiset Int
  | .leaf => 0
  | .node _ _ hk l r => hk ::ₘ (prios l + prios r)

/-- The multiset of `(tree_key, payload, heap_key)` triples of the nodes of
a treap. -/
def nodes : Treap → Multiset (Int × Int × Int)
  | .leaf => 0
  | .node tk pv hk l r => (tk, pv, hk) ::ₘ (nodes l + nodes r)

/-- The number of nodes of a treap. -/
def size (t : Treap) : Nat := Multiset.card (keys t)

/-- The BST invariant: at every node, all keys of the left subtree are
strictly below the node's key and all keys of the right subtree strictly
above it. -/
def BST : Treap → Prop
  | .leaf => True
  | .node tk _ _ l r =>
      (∀ x ∈ keys l, x < tk) ∧ (∀ x ∈ keys r, tk < x) ∧ BST l ∧ BST r

/-- The root's heap key (if any) is at most `b`. -/
def rootPrioLe (b : Int) : Treap → Prop
  | .leaf => True
  | .node _ _ hk _ _ => hk ≤ b

/-- The heap invariant: every node's heap key is at least the heap keys of
its children (each child's priority is ≤ its parent's priority). -/
def Heap : Treap → Prop
  | .leaf => True
  | .node _ _ hk l r => rootPrioLe hk l ∧ rootPrioLe hk r ∧ Heap l ∧ Heap r

/-- Building a treap by inserting each node of a list in order, as the
driver loop does starting from the null tree. -/
def insertAll (t : Treap) (ns : List NodeData) : Treap := ns.foldl insert t

/-- Apply a function to every heap key of a treap, leaving keys, payloads
and the shape untouched.  Used to state that `split` never inspects heap
keys. -/
def mapPrio (f : Int → Int) : Treap → Treap
  | .leaf => .leaf
  | .node tk pv hk l r => .node tk pv (f hk) (mapPrio f l) (mapPrio f r)

/-! ## Basic equation lemmas -/

@[simp] theorem split_leaf (k : Int) : split Treap.leaf k = (Treap.leaf, Treap.leaf) := rfl

theorem split_node (tk pv hk : Int) (l r : Treap) (k : Int) :
    split (Treap.node tk pv hk l r) k =
      if k < tk then ((split l k).1, Treap.node tk pv hk (split l k).2 r)
      else (Treap.node tk pv hk l (split r k).1, (split r k).2) := by
  rw [split]

theorem split_node_lt {k tk : Int} (h : k < tk) (pv hk : Int) (l r : Treap) :
    split (Treap.node tk pv hk l r) k =
      ((split l k).1, Treap.node tk pv hk (split l k).2 r) := by
  rw [split_node, if_pos h]

theorem split_node_ge {k tk : Int} (h : ¬ k < tk) (pv hk : Int) (l r : Treap) :
    split (Treap.node tk pv hk l r) k =
      (Treap.node tk pv hk l (split r k).1, (split r k).2) := by
  rw [split_node, if_neg h]

@[simp] theorem height_leaf : height Treap.leaf = 0 := rfl

theorem height_node (tk pv hk : Int) (l r : Treap) :
    height (Treap.node tk pv hk l r) = 1 + max (height l) (height r) := by
  rw [height]
  by_cases h : height l < height r
  · rw [if_pos h, Nat.max_eq_right (Nat.le_of_lt h)]
  · rw [if_neg h, Nat.max_eq_left (Nat.le_of_not_lt h)]

theorem insert_node (tk pv hk : Int) (l r : Treap) (n : NodeData) :
    insert (Treap.node tk pv hk l r) n =
      if hk > n.heap_key then
        (if n.tree_key < tk then Treap.node tk pv hk (insert l n) r
         else Treap.node tk pv hk l (insert r n))
      else Treap.node n.tree_key n.payload n.heap_key
             (split (Treap.node tk pv hk l r) n.tree_key).1
             (split (Treap.node tk pv hk l r) n.tree_key).2 := by
  rw [insert]

/-! ## Multiset contents of the results of split and insert

`keys`, `prios` and `nodes` all collect one datum per node; the next two
lemmas prove, once for any such collection, that `split` redistributes the
collection between its two halves and that `insert` adds exactly the new
node's datum. -/

theorem split_measure {α : Type} (μ : Treap → Multiset α) (c : Int → Int → Int → α)
    (h0 : μ Treap.leaf = 0)
    (hn : ∀ tk pv hk l r, μ (Treap.node tk pv hk l r) = c tk pv hk ::ₘ (μ l + μ r)) :
    ∀ (t : Treap) (k : Int), μ (split t k).1 + μ (split t k).2 = μ t := by
  intro t
  induction t with
  | leaf => intro k; simp [h0]
  | node tk pv hk l r ihl ihr =>
    intro k
    by_cases h : k < tk
    · rw [split_node_lt h]
      simp only [hn, ← ihl k, ← Multiset.singleton_add]
      abel
    · rw [split_node_ge h]
      simp only [hn, ← ihr k, ← Multiset.singleton_add]
      abel

theorem insert_measure {α : Type} (μ : Treap → Multiset α) (c : Int → Int → Int → α)
    (h0 : μ Treap.leaf = 0)
    (hn : ∀ tk pv hk l r, μ (Treap.node tk pv hk l r) = c tk pv hk ::ₘ (μ l + μ r)) :
    ∀ (t : Treap) (n : NodeData),
      μ (insert t n) = c n.tree_key n.payload n.heap_key ::ₘ μ t := by
  intro t
  induction t with
  | leaf => intro n; rw [show insert Treap.leaf n =
      Treap.node n.tree_key n.payload n.heap_key Treap.leaf Treap.leaf from rfl,
      hn, h0, add_zero]
  | node tk pv hk l r ihl ihr =>
    intro n
    rw [insert_node]
    by_cases hp : hk > n.heap_key
    · rw [if_pos hp]
      by_cases hkey : n.tree_key < tk
      · rw [if_pos hkey]
        simp only [hn, ihl n, ← Multiset.singleton_add]
        abel
      · rw [if_neg hkey]
        simp only [hn, ihr n, ← Multiset.singleton_add]
        abel
    · rw [if_neg hp, hn, split_measure μ c h0 hn (Treap.node tk pv hk l r) n.tree_key]

theorem keys_node (tk pv hk : Int) (l r : Treap) :
    keys (Treap.node tk pv hk l r) = tk ::ₘ (keys l + keys r) := rfl

theorem prios_node (tk pv hk : Int) (l r : Treap) :
    prios (Treap.node tk pv hk l r) = hk ::ₘ (prios l + prios r) := rfl

theorem nodes_node (tk pv hk : Int) (l r : Treap) :
    nodes (Treap.node tk pv hk l r) = (tk, pv, hk) ::ₘ (nodes l + nodes r) := rfl

theorem keys_split (t : Treap) (k : Int) :
    keys (split t k).1 + keys (split t k).2 = keys t :=
  split_measure keys (fun tk _ _ => tk) rfl keys_node t k

theorem prios_split (t : Treap) (k : Int) :
    prios (split t k).1 + prios (split t k).2 = prios t :=
  split_measure prios (fun _ _ hk => hk) rfl prios_node t k

theorem nodes_split (t : Treap) (k : Int) :
    nodes (split t k).1 + nodes (split t k).2 = nodes t :=
  split_measure nodes (fun tk pv hk => (tk, pv, hk)) rfl nodes_node t k

theorem keys_insert (t : Treap) (n : NodeData) :
    keys (insert t n) = n.tree_key ::ₘ keys t :=
  insert_measure keys (fun tk _ _ => tk) rfl keys_node t n

theorem prios_insert (t : Treap) (n : NodeData) :
    prios (insert t n) = n.heap_key ::ₘ prios t :=
  insert_measure prios (fun _ _ hk => hk) rfl prios_node t n

theorem nodes_insert (t : Treap) (n : NodeData) :
    nodes (insert t n) = (n.tree_key, n.payload, n.heap_key) ::ₘ nodes t :=
  insert_measure nodes (fun tk pv hk => (tk, pv, hk)) rfl nodes_node t n

theorem mem_keys_split_left {x : Int} {t : Treap} {k : Int}
    (hx : x ∈ keys (split t k).1) : x ∈ keys t := by
  rw [← keys_split t k]; exact Multiset.mem_add.mpr (Or.inl hx)

theorem mem_keys_split_right {x : Int} {t : Treap} {k : Int}
    (hx : x ∈ keys (split t k).2) : x ∈ keys t := by
  rw [← keys_split t k]; exact Multiset.mem_add.mpr (Or.inr hx)

theorem mem_prios_split_left {x : Int} {t : Treap} {k : Int}
    (hx : x ∈ prios (split t k).1) : x ∈ prios t := by
  rw [← prios_split t k]; exact Multiset.mem_add.mpr (Or.inl hx)

theorem mem_prios_split_right {x : Int} {t : Treap} {k : Int}
    (hx : x ∈ prios (split t k).2) : x ∈ prios t := by
  rw [← prios_split t k]; exact Multiset.mem_add.mpr (Or.inr hx)

/-! ## The key partition produced by split -/

theorem split_keys_le : ∀ (t : Treap) (k : Int), BST t →
    ∀ x ∈ keys (split t k).1, x ≤ k := by
  intro t
  induction t with
  | leaf => intro k _; simp [keys]
  | node tk pv hk l r ihl ihr =>
    intro k hb
    obtain ⟨hl, hr, bl, br⟩ := hb
    by_cases h : k < tk
    · rw [split_node_lt h]
      exact ihl k bl
    · rw [split_node_ge h]
      intro x hx
      rw [keys_node] at hx
      rcases Multiset.mem_cons.mp hx with rfl | hx2
      · omega
      · rcases Multiset.mem_add.mp hx2 with hxl | hxr
        · have := hl x hxl; omega
        · exact ihr k br x hxr

theorem split_keys_gt : ∀ (t : Treap) (k : Int), BST t →
    ∀ x ∈ keys (split t k).2, k < x := by
  intro t
  induction t with
  | leaf => intro k _; simp [keys]
  | node tk pv hk l r ihl ihr =>
    intro k hb
    obtain ⟨hl, hr, bl, br⟩ := hb
    by_cases h : k < tk
    · rw [split_node_lt h]
      intro x hx
      rw [keys_node] at hx
      rcases Multiset.mem_cons.mp hx with rfl | hx2
      · omega
      · rcases Multiset.mem_add.mp hx2 with hxl | hxr
        · exact ihl k bl x hxl
        · have := hr x hxr; omega
    · rw [split_node_ge h]
      exact ihr k br

/-! ## Invariant preservation by split -/

theorem split_bst : ∀ (t : Treap) (k : Int), BST t →
    BST (split t k).1 ∧ BST (split t k).2 := by
  intro t
  induction t with
  | leaf => intro k _; exact ⟨trivial, trivial⟩
  | node tk pv hk l r ihl ihr =>
    intro k hb
    obtain ⟨hl, hr, bl, br⟩ := hb
    by_cases h : k < tk
    · rw [split_node_lt h]
      refine ⟨(ihl k bl).1, ?_⟩
      refine ⟨fun x hx => hl x (mem_keys_split_right hx), hr, (ihl k bl).2, br⟩
    · rw [split_node_ge h]
      refine ⟨⟨hl, fun x hx => hr x (mem_keys_split_left hx), bl, (ihr k br).1⟩, (ihr k br).2⟩

theorem rootPrioLe_of_forall : ∀ (t : Treap) (b : Int),
    (∀ q ∈ prios t, q ≤ b) → rootPrioLe b t := by
  intro t b h
  cases t with
  | leaf => trivial
  | node tk pv hk l r =>
    exact h hk (by rw [prios_node]; exact Multiset.mem_cons_self _ _)

theorem prios_le_of_heap : ∀ (t : Treap), Heap t → ∀ (b : Int), rootPrioLe b t →
    ∀ q ∈ prios t, q ≤ b := by
  intro t
  induction t with
  | leaf => intro _ b _ q hq; simp [prios] at hq
  | node tk pv hk l r ihl ihr =>
    intro hh b hroot q hq
    obtain ⟨h1, h2, hl, hr⟩ := hh
    rw [prios_node] at hq
    rcases Multiset.mem_cons.mp hq with rfl | hq2
    · exact hroot
    · rcases Multiset.mem_add.mp hq2 with hql | hqr
      · exact le_trans (ihl hl hk h1 q hql) hroot
      · exact le_trans (ihr hr hk h2 q hqr) hroot

theorem split_heap : ∀ (t : Treap) (k : Int), Heap t →
    Heap (split t k).1 ∧ Heap (split t k).2 := by
  intro t
  induction t with
  | leaf => intro k _; exact ⟨trivial, trivial⟩
  | node tk pv hk l r ihl ihr =>
    intro k hh
    obtain ⟨h1, h2, hl, hr⟩ := hh
    by_cases h : k < tk
    · rw [split_node_lt h]
      refine ⟨(ihl k hl).1, ?_⟩
      refine ⟨rootPrioLe_of_forall _ _ (fun q hq =>
        prios_le_of_heap l hl hk h1 q (mem_prios_split_right hq)), h2, (ihl k hl).2, hr⟩
    · rw [split_node_ge h]
      refine ⟨⟨h1, rootPrioLe_of_forall _ _ (fun q hq =>
        prios_le_of_heap r hr hk h2 q (mem_prios_split_left hq)), hl, (ihr k hr).1⟩,
        (ihr k hr).2⟩

/-! ## Invariant preservation by insert -/

theorem insert_bst : ∀ (t : Treap) (n : NodeData), BST t → n.tree_key ∉ keys t →
    BST (insert t n) := by
  intro t
  induction t with
  | leaf =>
    intro n _ _
    exact ⟨by simp [keys], by simp [keys], trivial, trivial⟩
  | node tk pv hk l r ihl ihr =>
    intro n hb hfresh
    obtain ⟨hl, hr, bl, br⟩ := hb
    have hne : n.tree_key ≠ tk := fun he =>
      hfresh (by rw [keys_node, he]; exact Multiset.mem_cons_self _ _)
    have hfl : n.tree_key ∉ keys l := fun hm => hfresh (by
      rw [keys_node]; exact Multiset.mem_cons_of_mem (Multiset.mem_add.mpr (Or.inl hm)))
    have hfr : n.tree_key ∉ keys r := fun hm => hfresh (by
      rw [keys_node]; exact Multiset.mem_cons_of_mem (Multiset.mem_add.mpr (Or.inr hm)))
    rw [insert_node]
    by_cases hp : hk > n.heap_key
    · rw [if_pos hp]
      by_cases hkey : n.tree_key < tk
      · rw [if_pos hkey]
        refine ⟨?_, hr, ihl n bl hfl, br⟩
        intro x hx
        rw [keys_insert] at hx
        rcases Multiset.mem_cons.mp hx with rfl | hx2
        · exact hkey
        · exact hl x hx2
      · rw [if_neg hkey]
        refine ⟨hl, ?_, bl, ihr n br hfr⟩
        intro x hx
        rw [keys_insert] at hx
        rcases Multiset.mem_cons.mp hx with rfl | hx2
        · omega
        · exact hr x hx2
    · rw [if_neg hp]
      have hbt : BST (Treap.node tk pv hk l r) := ⟨hl, hr, bl, br⟩
      refine ⟨?_, split_keys_gt _ _ hbt, (split_bst _ _ hbt).1, (split_bst _ _ hbt).2⟩
      intro x hx
      have hle := split_keys_le _ _ hbt x hx
      have hxne : x ≠ n.tree_key := fun he => hfresh (he ▸ mem_keys_split_left hx)
      omega

theorem insert_heap : ∀ (t : Treap) (n : NodeData), Heap t → Heap (insert t n) := by
  intro t
  induction t with
  | leaf => intro n _; exact ⟨trivial, trivial, trivial, trivial⟩
  | node tk pv hk l r ihl ihr =>
    intro n hh
    obtain ⟨h1, h2, hl, hr⟩ := hh
    rw [insert_node]
    by_cases hp : hk > n.heap_key
    · rw [if_pos hp]
      by_cases hkey : n.tree_key < tk
      · rw [if_pos hkey]
        refine ⟨?_, h2, ihl n hl, hr⟩
        apply rootPrioLe_of_forall
        intro q hq
        rw [prios_insert] at hq
        rcases Multiset.mem_cons.mp hq with rfl | hq2
        · omega
        · exact prios_le_of_heap l hl hk h1 q hq2
      · rw [if_neg hkey]
        refine ⟨h1, ?_, hl, ihr n hr⟩
        apply rootPrioLe_of_forall
        intro q hq
        rw [prios_insert] at hq
        rcases Multiset.mem_cons.mp hq with rfl | hq2
        · omega
        · exact prios_le_of_heap r hr hk h2 q hq2
    · rw [if_neg hp]
      have hht : Heap (Treap.node tk pv hk l r) := ⟨h1, h2, hl, hr⟩
      have hall : ∀ q ∈ prios (Treap.node tk pv hk l r), q ≤ n.heap_key := by
        intro q hq
        have := prios_le_of_heap _ hht hk (le_refl hk) q hq
        omega
      exact ⟨rootPrioLe_of_forall _ _ (fun q hq => hall q (mem_prios_split_left hq)),
        rootPrioLe_of_forall _ _ (fun q hq => hall q (mem_prios_split_right hq)),
        (split_heap _ _ hht).1, (split_heap _ _ hht).2⟩

/-! ## Trees built by a sequence of inserts -/

theorem insertAll_nil (t : Treap) : insertAll t [] = t := rfl

theorem insertAll_cons (t : Treap) (n : NodeData) (ns : List NodeData) :
    insertAll t (n :: ns) = insertAll (insert t n) ns := rfl

theorem keys_insertAll : ∀ (ns : List NodeData) (t : Treap),
    keys (insertAll t ns) = (ns.map NodeData.tree_key : Multiset Int) + keys t := by
  intro ns
  induction ns with
  | nil => intro t; simp [insertAll_nil]
  | cons n ns ih =>
    intro t
    rw [insertAll_cons, ih, keys_insert]
    simp only [List.map_cons, ← Multiset.cons_coe, Multiset.cons_add, Multiset.add_cons]

theorem insertAll_bst : ∀ (ns : List NodeData) (t : Treap), BST t →
    (∀ n ∈ ns, n.tree_key ∉ keys t) →
    ns.Pairwise (fun a b => a.tree_key ≠ b.tree_key) →
    BST (insertAll t ns) := by
  intro ns
  induction ns with
  | nil => intro t hb _ _; exact hb
  | cons n ns ih =>
    intro t hb hfresh hpw
    rw [insertAll_cons]
    rcases List.pairwise_cons.mp hpw with ⟨hhead, htail⟩
    apply ih
    · exact insert_bst t n hb (hfresh n (List.mem_cons_self n ns))
    · intro m hm hmem
      rw [keys_insert] at hmem
      rcases Multiset.mem_cons.mp hmem with he | hmem2
      · exact hhead m hm he.symm
      · exact hfresh m (List.mem_cons_of_mem n hm) hmem2
    · exact htail

theorem insertAll_heap : ∀ (ns : List NodeData) (t : Treap), Heap t →
    Heap (insertAll t ns) := by
  intro ns
  induction ns with
  | nil => intro t hh; exact hh
  | cons n ns ih => intro t hh; exact ih (insert t n) (insert_heap t n hh)

/-! ## Correctness of the existence query -/

theorem existsKey_leaf (k : Int) : existsKey Treap.leaf k = false := rfl

theorem existsKey_iff_mem : ∀ (t : Treap), BST t → ∀ (k : Int),
    existsKey t k = true ↔ k ∈ keys t := by
  intro t
  induction t with
  | leaf => intro _ k; simp [existsKey, keys]
  | node tk pv hk l r ihl ihr =>
    intro hb k
    obtain ⟨hl, hr, bl, br⟩ := hb
    simp only [existsKey]
    by_cases he : k = tk
    · subst he
      simp [keys_node]
    · rw [if_neg he]
      by_cases hlt : k < tk
      · rw [if_pos hlt, ihl bl k, keys_node]
        constructor
        · intro hm; exact Multiset.mem_cons_of_mem (Multiset.mem_add.mpr (Or.inl hm))
        · intro hm
          rcases Multiset.mem_cons.mp hm with he2 | hm2
          · exact absurd he2 he
          · rcases Multiset.mem_add.mp hm2 with h1 | h2
            · exact h1
            · have := hr k h2; omega
      · rw [if_neg hlt, ihr br k, keys_node]
        constructor
        · intro hm; exact Multiset.mem_cons_of_mem (Multiset.mem_add.mpr (Or.inr hm))
        · intro hm
          rcases Multiset.mem_cons.mp hm with he2 | hm2
          · exact absurd he2 he
          · rcases Multiset.mem_add.mp hm2 with h1 | h2
            · have := hl k h1; omega
            · exact h2

/-! ## Split never inspects heap keys -/

theorem mapPrio_node (f : Int → Int) (tk pv hk : Int) (l r : Treap) :
    mapPrio f (Treap.node tk pv hk l r) =
      Treap.node tk pv (f hk) (mapPrio f l) (mapPrio f r) := rfl

theorem split_mapPrio (f : Int → Int) : ∀ (t : Treap) (k : Int),
    split (mapPrio f t) k = (mapPrio f (split t k).1, mapPrio f (split t k).2) := by
  intro t
  induction t with
  | leaf => intro k; rfl
  | node tk pv hk l r ihl ihr =>
    intro k
    by_cases h : k < tk
    · rw [mapPrio_node, split_node_lt h, split_node_lt h, ihl k, mapPrio_node]
    · rw [mapPrio_node, split_node_ge h, split_node_ge h, ihr k, mapPrio_node]

/-! ## Height bounds for split and insert -/

theorem height_split_le : ∀ (t : Treap) (k : Int),
    height (split t k).1 ≤ height t ∧ height (split t k).2 ≤ height t := by
  intro t
  induction t with
  | leaf => intro k; exact ⟨le_refl _, le_refl _⟩
  | node tk pv hk l r ihl ihr =>
    intro k
    by_cases h : k < tk
    · rw [split_node_lt h]
      have h1 := (ihl k).1
      have h2 := (ihl k).2
      simp only [height_node]
      constructor <;> omega
    · rw [split_node_ge h]
      have h1 := (ihr k).1
      have h2 := (ihr k).2
      simp only [height_node]
      constructor <;> omega

theorem height_insert_le : ∀ (t : Treap) (n : NodeData),
    height (insert t n) ≤ height t + 1 := by
  intro t
  induction t with
  | leaf =>
    intro n
    rw [show insert Treap.leaf n =
      Treap.node n.tree_key n.payload n.heap_key Treap.leaf Treap.leaf from rfl, height_node]
    simp
  | node tk pv hk l r ihl ihr =>
    intro n
    rw [insert_node]
    by_cases hp : hk > n.heap_key
    · rw [if_pos hp]
      by_cases hkey : n.tree_key < tk
      · rw [if_pos hkey]
        have h1 := ihl n
        simp only [height_node]
        omega
      · rw [if_neg hkey]
        have h1 := ihr n
        simp only [height_node]
        omega
    · rw [if_neg hp]
      have h1 := (height_split_le (Treap.node tk pv hk l r) n.tree_key).1
      have h2 := (height_split_le (Treap.node tk pv hk l r) n.tree_key).2
      simp only [height_node] at h1 h2 ⊢
      omega

theorem height_insert_pos : ∀ (t : Treap) (n : NodeData), 1 ≤ height (insert t n) := by
  intro t n
  cases t with
  | leaf =>
    rw [show insert Treap.leaf n =
      Treap.node n.tree_key n.payload n.heap_key Treap.leaf Treap.leaf from rfl, height_node]
    omega
  | node tk pv hk l r =>
    rw [insert_node]
    by_cases hp : hk > n.heap_key
    · rw [if_pos hp]
      by_cases hkey : n.tree_key < tk
      · rw [if_pos hkey, height_node]; omega
      · rw [if_neg hkey, height_node]; omega
    · rw [if_neg hp, height_node]; omega

/-! ## Fuel-bounded versions of the four operations

The C++ recursions of `split`, `insert`, `exists` and `height` each descend
into a strict subtree at every recursive call (the split performed inside
`insert` starts at the current subtree, whose height the insertion path has
not increased).  The following variants count recursion steps explicitly
and return `none` when the fuel runs out; the theorems below show that fuel
exceeding the input's height always suffices, so every run of the C++
recursion terminates within depth-many nested calls. -/

def splitF : Nat → Treap → Int → Option (Treap × Treap)
  | 0, _, _ => none
  | _ + 1, .leaf, _ => some (.leaf, .leaf)
  | fuel + 1, .node tk pv hk l r, k =>
    if k < tk then
      match splitF fuel l k with
      | none => none
      | some p => some (p.1, .node tk pv hk p.2 r)
    else
      match splitF fuel r k with
      | none => none
      | some p => some (.node tk pv hk l p.1, p.2)

def insertF : Nat → Treap → NodeData → Option Treap
  | 0, _, _ => none
  | _ + 1, .leaf, n => some (.node n.tree_key n.payload n.heap_key .leaf .leaf)
  | fuel + 1, .node tk pv hk l r, n =>
    if hk > n.heap_key then
      if n.tree_key < tk then
        match insertF fuel l n with
        | none => none
        | some l2 => some (.node tk pv hk l2 r)
      else
        match insertF fuel r n with
        | none => none
        | some r2 => some (.node tk pv hk l r2)
    else
      match splitF (fuel + 1) (.node tk pv hk l r) n.tree_key with
      | none => none
      | some p => some (.node n.tree_key n.payload n.heap_key p.1 p.2)

def existsF : Nat → Treap → Int → Option Bool
  | 0, _, _ => none
  | _ + 1, .leaf, _ => some false
  | fuel + 1, .node tk _ _ l r, k =>
    if k = tk then some true
    else if k < tk then existsF fuel l k else existsF fuel r k

def heightF : Nat → Treap → Option Nat
  | 0, _ => none
  | _ + 1, .leaf => some 0
  | fuel + 1, .node _ _ _ l r =>
    match heightF fuel l, heightF fuel r with
    | some lh, some rh => some (1 + (if lh < rh then rh else lh))
    | _, _ => none

theorem splitF_eq : ∀ (t : Treap) (fuel : Nat) (k : Int), height t < fuel →
    splitF fuel t k = some (split t k) := by
  intro t
  induction t with
  | leaf =>
    intro fuel k hf
    cases fuel with
    | zero => simp [height] at hf
    | succ m => rfl
  | node tk pv hk l r ihl ihr =>
    intro fuel k hf
    cases fuel with
    | zero => rw [height_node] at hf; omega
    | succ m =>
      have hfl : height l < m := by rw [height_node] at hf; omega
      have hfr : height r < m := by rw [height_node] at hf; omega
      simp only [splitF]
      by_cases h : k < tk
      · rw [if_pos h, ihl m k hfl, split_node_lt h]
      · rw [if_neg h, ihr m k hfr, split_node_ge h]

theorem insertF_eq : ∀ (t : Treap) (fuel : Nat) (n : NodeData), height t < fuel →
    insertF fuel t n = some (insert t n) := by
  intro t
  induction t with
  | leaf =>
    intro fuel n hf
    cases fuel with
    | zero => simp [height] at hf
    | succ m => rfl
  | node tk pv hk l r ihl ihr =>
    intro fuel n hf
    cases fuel with
    | zero => rw [height_node] at hf; omega
    | succ m =>
      have hfl : height l < m := by rw [height_node] at hf; omega
      have hfr : height r < m := by rw [height_node] at hf; omega
      simp only [insertF]
      rw [insert_node]
      by_cases hp : hk > n.heap_key
      · rw [if_pos hp, if_pos hp]
        by_cases hkey : n.tree_key < tk
        · rw [if_pos hkey, if_pos hkey, ihl m n hfl]
        · rw [if_neg hkey, if_neg hkey, ihr m n hfr]
      · rw [if_neg hp, if_neg hp,
          splitF_eq (Treap.node tk pv hk l r) (m + 1) n.tree_key hf]

theorem existsF_eq : ∀ (t : Treap) (fuel : Nat) (k : Int), height t < fuel →
    existsF fuel t k = some (existsKey t k) := by
  intro t
  induction t with
  | leaf =>
    intro fuel k hf
    cases fuel with
    | zero => simp [height] at hf
    | succ m => rfl
  | node tk pv hk l r ihl ihr =>
    intro fuel k hf
    cases fuel with
    | zero => rw [height_node] at hf; omega
    | succ m =>
      have hfl : height l < m := by rw [height_node] at hf; omega
      have hfr : height r < m := by rw [height_node] at hf; omega
      simp only [existsF, existsKey]
      by_cases he : k = tk
      · rw [if_pos he, if_pos he]
      · rw [if_neg he, if_neg he]
        by_cases hlt : k < tk
        · rw [if_pos hlt, if_pos hlt, ihl m k hfl]
        · rw [if_neg hlt, if_neg hlt, ihr m k hfr]

theorem heightF_eq : ∀ (t : Treap) (fuel : Nat), height t < fuel →
    heightF fuel t = some (height t) := by
  intro t
  induction t with
  | leaf =>
    intro fuel hf
    cases fuel with
    | zero => simp [height] at hf
    | succ m => rfl
  | node tk pv hk l r ihl ihr =>
    intro fuel hf
    cases fuel with
    | zero => rw [height_node] at hf; omega
    | succ m =>
      have hfl : height l < m := by rw [height_node] at hf; omega
      have hfr : height r < m := by rw [height_node] at hf; omega
      simp only [heightF, ihl m hfl, ihr m hfr, height]

/-- **C7** — Height definition: the height of the empty tree is `0`, and the
height of a non-empty tree is `1 + max (height left) (height right)`, i.e.
the number of nodes on the longest root-to-leaf path. -/
theorem C7_height_def :
    height Treap.leaf = 0 ∧
    ∀ tk pv hk : Int, ∀ l r : Treap,
      height (Treap.node tk pv hk l r) = 1 + max (height l) (height r) := by
  exact ⟨rfl, height_node⟩

/-- **C1** (counterexample) — The claim that every key of the left half of
`split(T, k)` is `< k` fails: splitting the single-node BST with key `0` at
pivot `0` puts that node into the left half (the C++ `else` branch covers
`k ≥ tree_key`, not only `k > tree_key`), and `0 < 0` is false. -/
theorem C1_counterexample :
    BST (Treap.node 0 0 0 Treap.leaf Treap.leaf) ∧
    (0 : Int) ∈ keys (split (Treap.node 0 0 0 Treap.leaf Treap.leaf) 0).1 ∧
    ¬ ((0 : Int) < 0) := by
  refine ⟨⟨by simp [keys], by simp [keys], trivial, trivial⟩, by decide, by omega⟩

/-- **C1** (amended) — Split partition correctness: for every tree `T`
satisfying the BST invariant and every pivot key `k`, `split(T, k) = (L, R)`
where every key in `L` is `≤ k`, every key in `R` is `> k`, and the multiset
of keys in `L` together with `R` equals the multiset of keys in `T`; in
particular split of the empty tree yields `(empty, empty)`. -/
theorem C1_split_partition (t : Treap) (k : Int) (hb : BST t) :
    (∀ x ∈ keys (split t k).1, x ≤ k) ∧
    (∀ x ∈ keys (split t k).2, k < x) ∧
    keys (split t k).1 + keys (split t k).2 = keys t ∧
    split Treap.leaf k = (Treap.leaf, Treap.leaf) :=
  ⟨split_keys_le t k hb, split_keys_gt t k hb, keys_split t k, rfl⟩

/-- Witness for C1: the amended partition property evaluated on the
single-node tree with key `1` split at pivot `0`. -/
theorem C1_split_partition_witness :
    (∀ x ∈ keys (split (Treap.node 1 2 3 Treap.leaf Treap.leaf) 0).1, x ≤ 0) ∧
    (∀ x ∈ keys (split (Treap.node 1 2 3 Treap.leaf Treap.leaf) 0).2, (0 : Int) < x) ∧
    keys (split (Treap.node 1 2 3 Treap.leaf Treap.leaf) 0).1 +
      keys (split (Treap.node 1 2 3 Treap.leaf Treap.leaf) 0).2 =
      keys (Treap.node 1 2 3 Treap.leaf Treap.leaf) ∧
    split Treap.leaf 0 = (Treap.leaf, Treap.leaf) :=
  C1_split_partition (Treap.node 1 2 3 Treap.leaf Treap.leaf) 0
    ⟨by simp [keys], by simp [keys], trivial, trivial⟩

/-- **C2** — Invariant preservation by insert: every tree built from the
empty tree by a sequence of inserts of nodes with pairwise distinct keys and
pairwise distinct priorities satisfies the BST invariant and the heap
invariant. -/
theorem C2_insert_invariants (ns : List NodeData)
    (hk : ns.Pairwise (fun a b => a.tree_key ≠ b.tree_key))
    (_hp : ns.Pairwise (fun a b => a.heap_key ≠ b.heap_key)) :
    BST (insertAll Treap.leaf ns) ∧ Heap (insertAll Treap.leaf ns) :=
  ⟨insertAll_bst ns Treap.leaf trivial (fun n _ h => by simp [keys] at h) hk,
   insertAll_heap ns Treap.leaf trivial⟩

/-- Witness for C2: both invariants hold for the tree built from two nodes
with distinct keys and priorities. -/
theorem C2_insert_invariants_witness :
    BST (insertAll Treap.leaf [⟨1, 10, 5⟩, ⟨2, 20, 3⟩]) ∧
    Heap (insertAll Treap.leaf [⟨1, 10, 5⟩, ⟨2, 20, 3⟩]) :=
  C2_insert_invariants [⟨1, 10, 5⟩, ⟨2, 20, 3⟩] (by decide) (by decide)

/-- **C3** — Split preserves the structure of each half without looking at
priorities: both halves of `split(T, k)` satisfy the BST invariant and the
heap invariant whenever `T` does, and the computation commutes with any
relabeling of the heap keys (it depends only on key comparisons). -/
theorem C3_split_invariants (t : Treap) (k : Int) :
    (BST t → BST (split t k).1 ∧ BST (split t k).2) ∧
    (Heap t → Heap (split t k).1 ∧ Heap (split t k).2) ∧
    ∀ f : Int → Int,
      split (mapPrio f t) k = (mapPrio f (split t k).1, mapPrio f (split t k).2) :=
  ⟨split_bst t k, split_heap t k, fun f => split_mapPrio f t k⟩

/-- Witness for C3: evaluated on the single-node tree with key `1` split at
pivot `0`, with heap-key relabeling `x ↦ x + 1`. -/
theorem C3_split_invariants_witness :
    (BST (split (Treap.node 1 2 3 Treap.leaf Treap.leaf) 0).1 ∧
      BST (split (Treap.node 1 2 3 Treap.leaf Treap.leaf) 0).2) ∧
    (Heap (split (Treap.node 1 2 3 Treap.leaf Treap.leaf) 0).1 ∧
      Heap (split (Treap.node 1 2 3 Treap.leaf Treap.leaf) 0).2) ∧
    split (mapPrio (fun x => x + 1) (Treap.node 1 2 3 Treap.leaf Treap.leaf)) 0 =
      (mapPrio (fun x => x + 1) (split (Treap.node 1 2 3 Treap.leaf Treap.leaf) 0).1,
       mapPrio (fun x => x + 1) (split (Treap.node 1 2 3 Treap.leaf Treap.leaf) 0).2) := by
  have h := C3_split_invariants (Treap.node 1 2 3 Treap.leaf Treap.leaf) 0
  exact ⟨h.1 ⟨by simp [keys], by simp [keys], trivial, trivial⟩,
    h.2.1 ⟨trivial, trivial, trivial, trivial⟩, h.2.2 (fun x => x + 1)⟩

/-- **C4** — Insert algorithm steps: inserting into the empty tree yields the
new node as root with empty children; when the root's priority is strictly
greater than the new node's, the insertion recurses into the left child if
the new key is smaller than the root's key and into the right child
otherwise; otherwise (new priority ≥ root priority) the current subtree is
split at the new key, the two partitions become the new node's children,
and the new node is the new root. -/
theorem C4_insert_steps :
    (∀ n : NodeData, insert Treap.leaf n =
       Treap.node n.tree_key n.payload n.heap_key Treap.leaf Treap.leaf) ∧
    (∀ (tk pv hk : Int) (l r : Treap) (n : NodeData), hk > n.heap_key →
       insert (Treap.node tk pv hk l r) n =
         (if n.tree_key < tk then Treap.node tk pv hk (insert l n) r
          else Treap.node tk pv hk l (insert r n))) ∧
    (∀ (tk pv hk : Int) (l r : Treap) (n : NodeData), n.heap_key ≥ hk →
       insert (Treap.node tk pv hk l r) n =
         Treap.node n.tree_key n.payload n.heap_key
           (split (Treap.node tk pv hk l r) n.tree_key).1
           (split (Treap.node tk pv hk l r) n.tree_key).2) := by
  refine ⟨fun n => rfl, ?_, ?_⟩
  · intro tk pv hk l r n hp
    rw [insert_node, if_pos hp]
  · intro tk pv hk l r n hp
    rw [insert_node, if_neg (by omega)]

/-- Witness for C4: the three branches evaluated on concrete nodes (empty
tree; root priority `9 > 3`; root priority `2 ≤ 3`). -/
theorem C4_insert_steps_witness :
    insert Treap.leaf ⟨1, 2, 3⟩ = Treap.node 1 2 3 Treap.leaf Treap.leaf ∧
    insert (Treap.node 5 0 9 Treap.leaf Treap.leaf) ⟨1, 2, 3⟩ =
      (if (1 : Int) < 5 then
        Treap.node 5 0 9 (insert Treap.leaf ⟨1, 2, 3⟩) Treap.leaf
       else Treap.node 5 0 9 Treap.leaf (insert Treap.leaf ⟨1, 2, 3⟩)) ∧
    insert (Treap.node 5 0 2 Treap.leaf Treap.leaf) ⟨1, 2, 3⟩ =
      Treap.node 1 2 3 (split (Treap.node 5 0 2 Treap.leaf Treap.leaf) 1).1
        (split (Treap.node 5 0 2 Treap.leaf Treap.leaf) 1).2 :=
  ⟨C4_insert_steps.1 ⟨1, 2, 3⟩,
   C4_insert_steps.2.1 5 0 9 Treap.leaf Treap.leaf ⟨1, 2, 3⟩ (by decide),
   C4_insert_steps.2.2 5 0 2 Treap.leaf Treap.leaf ⟨1, 2, 3⟩ (by decide)⟩

/-- **C5** — Exists soundness and completeness: `exists` returns `false` on
the empty tree, and for every tree built purely by `insert` from nodes with
pairwise distinct keys, `exists` returns `true` exactly for the keys of the
inserted nodes. -/
theorem C5_exists_correct (ns : List NodeData)
    (hk : ns.Pairwise (fun a b => a.tree_key ≠ b.tree_key)) (k : Int) :
    existsKey Treap.leaf k = false ∧
    (existsKey (insertAll Treap.leaf ns) k = true ↔
      k ∈ ns.map NodeData.tree_key) := by
  refine ⟨rfl, ?_⟩
  have hb : BST (insertAll Treap.leaf ns) :=
    insertAll_bst ns Treap.leaf trivial (fun n _ h => by simp [keys] at h) hk
  rw [existsKey_iff_mem _ hb k, keys_insertAll]
  simp [keys]

/-- Witness for C5: querying key `3` in the tree built from keys `5` and
`3`. -/
theorem C5_exists_correct_witness :
    existsKey Treap.leaf 3 = false ∧
    (existsKey (insertAll Treap.leaf [⟨5, 0, 7⟩, ⟨3, 0, 4⟩]) 3 = true ↔
      (3 : Int) ∈ List.map NodeData.tree_key [⟨5, 0, 7⟩, ⟨3, 0, 4⟩]) :=
  C5_exists_correct [⟨5, 0, 7⟩, ⟨3, 0, 4⟩] (by decide) 3

/-- **C6** — Insert preserves size: for every tree built by `insert` and
every new node whose key does not occur in it, inserting the node increases
the number of keys by exactly one. -/
theorem C6_insert_size (ns : List NodeData) (n : NodeData)
    (_h : n.tree_key ∉ keys (insertAll Treap.leaf ns)) :
    size (insert (insertAll Treap.leaf ns) n) = size (insertAll Treap.leaf ns) + 1 := by
  rw [size, size, keys_insert, Multiset.card_cons]

/-- Witness for C6: inserting key `2` into the tree built from key `1`. -/
theorem C6_insert_size_witness :
    size (insert (insertAll Treap.leaf [⟨1, 0, 5⟩]) ⟨2, 0, 3⟩) =
      size (insertAll Treap.leaf [⟨1, 0, 5⟩]) + 1 :=
  C6_insert_size [⟨1, 0, 5⟩] ⟨2, 0, 3⟩ (by decide)

/-- **C8** — Termination: each of `split`, `insert`, `exists` and `height`
terminates on every finite tree; the fuel-counted variants, which stop when
the number of nested recursive calls exceeds the fuel, succeed and agree
with the total functions whenever the fuel exceeds the input's height. -/
theorem C8_termination (t : Treap) (k : Int) (n : NodeData) (fuel : Nat)
    (h : height t < fuel) :
    splitF fuel t k = some (split t k) ∧
    insertF fuel t n = some (insert t n) ∧
    existsF fuel t k = some (existsKey t k) ∧
    heightF fuel t = some (height t) :=
  ⟨splitF_eq t fuel k h, insertF_eq t fuel n h, existsF_eq t fuel k h,
   heightF_eq t fuel h⟩

/-- Witness for C8: fuel `2` suffices for the height-`1` single-node tree. -/
theorem C8_termination_witness :
    splitF 2 (Treap.node 1 2 3 Treap.leaf Treap.leaf) 0 =
      some (split (Treap.node 1 2 3 Treap.leaf Treap.leaf) 0) ∧
    insertF 2 (Treap.node 1 2 3 Treap.leaf Treap.leaf) ⟨4, 5, 6⟩ =
      some (insert (Treap.node 1 2 3 Treap.leaf Treap.leaf) ⟨4, 5, 6⟩) ∧
    existsF 2 (Treap.node 1 2 3 Treap.leaf Treap.leaf) 0 =
      some (existsKey (Treap.node 1 2 3 Treap.leaf Treap.leaf) 0) ∧
    heightF 2 (Treap.node 1 2 3 Treap.leaf Treap.leaf) =
      some (height (Treap.node 1 2 3 Treap.leaf Treap.leaf)) :=
  C8_termination (Treap.node 1 2 3 Treap.leaf Treap.leaf) 0 ⟨4, 5, 6⟩ 2 (by decide)

/-- **C9** — Payload immutability (frame property): `split` and `insert`
only rewire child links; the multiset of `(key, value, priority)` triples
of the result of `split` (both halves together) equals that of the input,
and `insert` adds exactly the new node's triple.  (`exists` and `height`
return a boolean and a number and produce no tree at all.) -/
theorem C9_payload_frame (t : Treap) (k : Int) (n : NodeData) :
    nodes (split t k).1 + nodes (split t k).2 = nodes t ∧
    nodes (insert t n) = (n.tree_key, n.payload, n.heap_key) ::ₘ nodes t :=
  ⟨nodes_split t k, nodes_insert t n⟩

/-- **C10** — Height bounds: both halves of `split(T, k)` have height at
most `height T`, and `height (insert T n)` is at most `height T + 1` and at
least `1`. -/
theorem C10_height_bounds (t : Treap) (k : Int) (n : NodeData) :
    height (split t k).1 ≤ height t ∧ height (split t k).2 ≤ height t ∧
    height (insert t n) ≤ height t + 1 ∧ 1 ≤ height (insert t n) :=
  ⟨(height_split_le t k).1, (height_split_le t k).2, height_insert_le t n,
   height_insert_pos t n⟩

end TreapSpec
